import Mathlib

/-!
Shallow embedding of the `hp-if` repository (HP-IL physical-layer decoder and
HP-71 bus device model), covering `src/hpil.rs` and `src/hp71bus.rs`.

Machine integers (`u32`, `u16`, `u8`) are modelled as `Nat`; all bit
operations (`>>>`, `<<<`, `&&&`, `|||`) are the Rust operations on those
values.  A Rust function that can panic (a failed `assert!`, an
`unwrap()` on `None`, or `unimplemented!()`) is modelled as returning
`Option`, with `none` for the panic.
-/

/-- The tri-state electrical sample `PhySample` of `hpil.rs`. -/
inductive PhySample where
  | Zero
  | Pos
  | Neg
deriving DecidableEq

/-- Rust `PhySample::as_bits`: 2-bit encoding of a sample.  The code 0 is avoided
so it can represent the lack of a sample in the packed register. -/
def PhySample.as_bits : PhySample → Nat
  | .Zero => 0b11
  | .Pos => 0b01
  | .Neg => 0b10

/-- Rust `PhySample::from_bits`: partial inverse of the 2-bit encoding. -/
def PhySample.from_bits : Nat → Option PhySample
  | 0b11 => some .Zero
  | 0b01 => some .Pos
  | 0b10 => some .Neg
  | _ => none

/-- Rust `PhyBitDecoder` of `hpil.rs`: sample history as a packed `u32` register
(`packed_samples`, 2 bits per sample, newest sample in the top bits) plus a
fill offset in bits (`packed_sample_offs`, a `u8`). -/
structure PhyBitDecoder where
  packed_samples : Nat
  packed_sample_offs : Nat
deriving DecidableEq

/-- Rust `PhyBitDecoder::default()`: empty history. -/
def PhyBitDecoder.default : PhyBitDecoder :=
  { packed_samples := 0, packed_sample_offs := 0 }

/-- Rust `PhyBitDecoder::push`.  The two `assert!`s are modelled by returning
`none` when their condition fails; otherwise the register is shifted right
by one sample width and the new sample is inserted in the top two bits. -/
def PhyBitDecoder.push (p : PhyBitDecoder) (s : PhySample) : Option PhyBitDecoder :=
  if p.packed_sample_offs &&& 1 ≠ 0 then none
  else
    let offs := if p.packed_sample_offs = 32 then p.packed_sample_offs - 2
                else p.packed_sample_offs
    if ¬ offs ≤ 30 then none
    else
      let ps := p.packed_samples >>> 2
      some { packed_samples := ps ||| (s.as_bits <<< (32 - 2)),
             packed_sample_offs := offs + 2 }

/-- The loop of `PhySampleIter::next` (from `Iterator for PhySampleIter`),
run to exhaustion and collected into a list, first-yielded element first.
`sample_offs` is the iterator cursor; the result is `none` if the
`from_bits(...).unwrap()` would panic (or if the cursor never meets
`packed_sample_offs`, which the fuel bounds). -/
def PhyBitDecoder.samplesGo (packed offsEnd : Nat) : Nat → Nat → Option (List PhySample)
  | 0, _ => none
  | fuel + 1, sample_offs =>
    if sample_offs = offsEnd then some []
    else
      let shift := 32 - sample_offs - 2
      let mask := 0b11 <<< shift
      match PhySample.from_bits ((packed &&& mask) >>> shift) with
      | none => none
      | some s =>
        Option.map (fun l => s :: l) (PhyBitDecoder.samplesGo packed offsEnd fuel (sample_offs + 2))

/-- Rust `PhyBitDecoder::samples()` collected into a list (iteration order: the
order `PhySampleIter::next` yields the samples in).  Fuel 17 covers the at
most 16 iterator steps of a 32-bit-offset buffer plus the final test. -/
def PhyBitDecoder.samples (p : PhyBitDecoder) : Option (List PhySample) :=
  PhyBitDecoder.samplesGo p.packed_samples p.packed_sample_offs 17 0

/-- Push a list of samples in order, propagating a panic of any push. -/
def PhyBitDecoder.pushAll (p : PhyBitDecoder) : List PhySample → Option PhyBitDecoder
  | [] => some p
  | s :: rest => (p.push s).bind (fun p2 => p2.pushAll rest)

/-- Buffer states reachable from the empty buffer by successful pushes. -/
inductive PhyBitDecoder.Reachable : PhyBitDecoder → Prop where
  | base : PhyBitDecoder.Reachable PhyBitDecoder.default
  | step (p p' : PhyBitDecoder) (s : PhySample) :
      PhyBitDecoder.Reachable p → p.push s = some p' → PhyBitDecoder.Reachable p'

/-- Rust `Command` of `hp71bus.rs`. -/
inductive HpCommand where
  | Id
  | Config
deriving DecidableEq

/-- Rust `BusDevice` of `hp71bus.rs`: a configured flag and a 5-nibble
identification value (a `u32`). -/
structure BusDevice where
  configured : Bool
  id : Nat
deriving DecidableEq

/-- Rust `BusSignalsIn` of `hp71bus.rs`. -/
structure BusSignalsIn where
  daisy_in : Bool
deriving DecidableEq

/-- Rust `BusSignalsOut` of `hp71bus.rs`. -/
structure BusSignalsOut where
  daisy_out : Bool
deriving DecidableEq

/-- Rust `BusDevice::out_signals`: `daisy_out` is held low when unconfigured,
high when configured. -/
def BusDevice.out_signals (d : BusDevice) : BusSignalsOut :=
  { daisy_out := d.configured }

/-- Rust `BusDevice::command` as written in the source: the early return when
unconfigured with `daisy_in` low leaves the device unchanged and emits
nothing (`some (d, none)`); every other path reaches `unimplemented!()`,
modelled as `none`.  The second component is the emitted response, were
one produced. -/
def BusDevice.command (d : BusDevice) (_cmd : HpCommand) (sig : BusSignalsIn) :
    Option (BusDevice × Option Nat) :=
  if !d.configured && !sig.daisy_in then some (d, none)
  else none

/-- Modelled from the spec: the body of `BusDevice::command` for an
unconfigured device with `daisy_in` asserted is missing from the source
(only the comment "respond to `Id` or `Config` only" precedes
`unimplemented!()`).  Per spec §4.4, `Config` transitions the device to
configured, `Id` emits the identification value without changing state;
the gating branch is kept exactly as in the source, and the configured
case (an extension point in the spec) is modelled as a no-op. -/
def BusDevice.commandSpec (d : BusDevice) (cmd : HpCommand) (sig : BusSignalsIn) :
    BusDevice × Option Nat :=
  if !d.configured && !sig.daisy_in then (d, none)
  else if !d.configured && sig.daisy_in then
    match cmd with
    | .Config => ({ d with configured := true }, none)
    | .Id => (d, some d.id)
  else (d, none)

/-- Rust `Message` of `hpil.rs`: 11 bits of on-bus data in a `u16`. -/
structure Message where
  raw : Nat
deriving DecidableEq

/-- Rust `Message::control`: the sync bit plus 2 control bits. -/
def Message.control (m : Message) : Nat :=
  (m.raw &&& (0b111 <<< 8)) >>> 8

/-- Rust `Message::data`: the payload byte (`self.raw as u8`, i.e. the value
modulo 2^8). -/
def Message.data (m : Message) : Nat :=
  m.raw % 2 ^ 8

/-- Modelled from the spec: `PollPhy::check_seq` is `unimplemented!()` in
the source; the bit-decoding table is taken from spec §4.2 (which matches
the doc comment on `PhyBitDecoder` in `hpil.rs`): the result is
`some (bit, sync)` when the sample sequence (oldest → newest) matches one
of the four patterns, `none` otherwise. -/
def check_seq : List PhySample → Option (Bool × Bool)
  | [.Pos, .Neg, .Zero, .Zero] => some (true, false)
  | [.Neg, .Pos, .Zero, .Zero] => some (false, false)
  | [.Pos, .Neg, .Pos, .Neg, .Zero, .Zero] => some (true, true)
  | [.Neg, .Pos, .Neg, .Pos, .Zero, .Zero] => some (false, true)
  | _ => none

/-- The invariant maintained by `push`: the register fits in 32 bits, the
fill offset is even and at most 32, and every filled 2-bit slot (counted
from the newest end, matching the iterator scan) holds a valid sample
code. -/
def PhyBitDecoder.Inv (p : PhyBitDecoder) : Prop :=
  p.packed_samples < 2 ^ 32 ∧
  p.packed_sample_offs % 2 = 0 ∧
  p.packed_sample_offs ≤ 32 ∧
  ∀ i : Nat, 2 * i < p.packed_sample_offs →
    (PhySample.from_bits ((p.packed_samples >>> (30 - 2 * i)) % 4)).isSome

theorem and_mask_shiftRight (x k n : Nat) :
    (x &&& ((2 ^ n - 1) <<< k)) >>> k = (x >>> k) % 2 ^ n := by
  apply Nat.eq_of_testBit_eq
  intro j
  simp [Nat.testBit_and, Nat.testBit_shiftLeft, Nat.testBit_shiftRight,
    Nat.testBit_mod_two_pow, Nat.testBit_two_pow_sub_one, Nat.le_add_right,
    Bool.and_comm]

theorem or_shiftRight_distrib (a b k : Nat) : (a ||| b) >>> k = (a >>> k) ||| (b >>> k) := by
  apply Nat.eq_of_testBit_eq
  intro j
  simp [Nat.testBit_shiftRight, Nat.testBit_or]

theorem or_mod_two_pow (a b k : Nat) : (a ||| b) % 2 ^ k = (a % 2 ^ k) ||| (b % 2 ^ k) := by
  apply Nat.eq_of_testBit_eq
  intro j
  simp [Nat.testBit_mod_two_pow, Nat.testBit_or, Bool.and_or_distrib_left]

theorem PhyBitDecoder.push_eq_some (p : PhyBitDecoder) (s : PhySample)
    (heven : p.packed_sample_offs % 2 = 0) (hle : p.packed_sample_offs ≤ 32) :
    p.push s = some
      { packed_samples := (p.packed_samples >>> 2) ||| (s.as_bits <<< (32 - 2)),
        packed_sample_offs :=
          (if p.packed_sample_offs = 32 then 30 else p.packed_sample_offs) + 2 } := by
  by_cases hO : p.packed_sample_offs = 32
  · simp [PhyBitDecoder.push, Nat.and_one_is_mod, heven, hO]
  · have h30 : p.packed_sample_offs ≤ 30 := by omega
    simp [PhyBitDecoder.push, Nat.and_one_is_mod, heven, hO, h30]

theorem PhySample.as_bits_lt (s : PhySample) : s.as_bits < 4 := by
  cases s <;> decide

theorem PhySample.from_bits_as_bits (s : PhySample) : PhySample.from_bits s.as_bits = some s := by
  cases s <;> rfl

theorem PhyBitDecoder.push_Inv {p p' : PhyBitDecoder} {s : PhySample}
    (hp : p.Inv) (h : p.push s = some p') : p'.Inv := by
  obtain ⟨hlt, heven, hle, hslots⟩ := hp
  rw [PhyBitDecoder.push_eq_some p s heven hle, Option.some.injEq] at h
  rw [show (32:Nat) - 2 = 30 from rfl] at h
  subst h
  refine ⟨?_, ?_, ?_, ?_⟩
  · show (p.packed_samples >>> 2) ||| (s.as_bits <<< 30) < 2 ^ 32
    apply Nat.or_lt_two_pow
    · calc p.packed_samples >>> 2 ≤ p.packed_samples := by
            rw [Nat.shiftRight_eq_div_pow]; exact Nat.div_le_self _ _
        _ < 2 ^ 32 := hlt
    · have h4 : s.as_bits < 4 := s.as_bits_lt
      rw [Nat.shiftLeft_eq]
      calc s.as_bits * 2 ^ 30 < 4 * 2 ^ 30 :=
            (Nat.mul_lt_mul_right (by norm_num : (0:Nat) < 2 ^ 30)).mpr h4
        _ = 2 ^ 32 := by norm_num
  · show ((if p.packed_sample_offs = 32 then 30 else p.packed_sample_offs) + 2) % 2 = 0
    by_cases hO : p.packed_sample_offs = 32
    · rw [if_pos hO]
    · rw [if_neg hO]; omega
  · show (if p.packed_sample_offs = 32 then 30 else p.packed_sample_offs) + 2 ≤ 32
    by_cases hO : p.packed_sample_offs = 32
    · rw [if_pos hO]
    · rw [if_neg hO]; omega
  · intro i hi
    have hi2 : 2 * i < (if p.packed_sample_offs = 32 then 30 else p.packed_sample_offs) + 2 := hi
    match i with
    | 0 =>
      show (PhySample.from_bits
        ((((p.packed_samples >>> 2) ||| (s.as_bits <<< 30)) >>> (30 - 2 * 0)) % 4)).isSome
      rw [show 30 - 2 * 0 = 30 from rfl, or_shiftRight_distrib,
        ← Nat.shiftRight_add, show 2 + 30 = 32 from rfl,
        Nat.shiftLeft_shiftRight,
        show p.packed_samples >>> 32 = 0 from by
          rw [Nat.shiftRight_eq_div_pow]; exact Nat.div_eq_of_lt hlt,
        Nat.zero_or, Nat.mod_eq_of_lt s.as_bits_lt, s.from_bits_as_bits]
      rfl
    | j + 1 =>
      show (PhySample.from_bits
        ((((p.packed_samples >>> 2) ||| (s.as_bits <<< 30)) >>> (30 - 2 * (j + 1))) % 4)).isSome
      have hj : j ≤ 14 := by
        by_cases hO : p.packed_sample_offs = 32
        · rw [if_pos hO] at hi2; omega
        · rw [if_neg hO] at hi2; omega
      have h2j : 2 * j < p.packed_sample_offs := by
        by_cases hO : p.packed_sample_offs = 32
        · rw [if_pos hO] at hi2; omega
        · rw [if_neg hO] at hi2; omega
      rw [show 30 - 2 * (j + 1) = 28 - 2 * j from by omega, or_shiftRight_distrib,
        ← Nat.shiftRight_add, show 2 + (28 - 2 * j) = 30 - 2 * j from by omega]
      rw [show s.as_bits <<< 30 = (s.as_bits <<< (2 + 2 * j)) <<< (28 - 2 * j) from by
        rw [← Nat.shiftLeft_add, show 2 + 2 * j + (28 - 2 * j) = 30 from by omega]]
      rw [Nat.shiftLeft_shiftRight,
        show (4:Nat) = 2 ^ 2 from rfl, or_mod_two_pow,
        show s.as_bits <<< (2 + 2 * j) % 2 ^ 2 = 0 from by
          rw [Nat.shiftLeft_eq, pow_add,
            show s.as_bits * (2 ^ 2 * 2 ^ (2 * j)) = s.as_bits * 2 ^ (2 * j) * 2 ^ 2 from by ring]
          exact Nat.mul_mod_left _ _,
        Nat.or_zero]
      exact hslots j h2j

theorem PhyBitDecoder.reachable_Inv {p : PhyBitDecoder} (h : p.Reachable) : p.Inv := by
  induction h with
  | base =>
    refine ⟨by norm_num [PhyBitDecoder.default], rfl, by norm_num [PhyBitDecoder.default], ?_⟩
    intro i hi
    simp [PhyBitDecoder.default] at hi
  | step p p' s hr hpush ih => exact PhyBitDecoder.push_Inv ih hpush

theorem PhyBitDecoder.samplesGo_length (packed offsEnd : Nat)
    (hvalid : ∀ i, 2 * i < offsEnd →
      (PhySample.from_bits ((packed >>> (30 - 2 * i)) % 4)).isSome)
    (hEnd2 : offsEnd % 2 = 0) (hEnd : offsEnd ≤ 32) :
    ∀ fuel so, so % 2 = 0 → so ≤ offsEnd → (offsEnd - so) / 2 < fuel →
      Option.map List.length (PhyBitDecoder.samplesGo packed offsEnd fuel so)
        = some ((offsEnd - so) / 2) := by
  intro fuel
  induction fuel with
  | zero => intro so _ _ hf; omega
  | succ n ih =>
    intro so hso2 hsole hf
    rw [PhyBitDecoder.samplesGo]
    by_cases hso : so = offsEnd
    · rw [if_pos hso]
      simp [hso]
    · rw [if_neg hso]
      have hlt : so < offsEnd := Nat.lt_of_le_of_ne hsole hso
      have hconv : (packed &&& (0b11 <<< (32 - so - 2))) >>> (32 - so - 2)
          = (packed >>> (30 - 2 * (so / 2))) % 4 := by
        rw [show (0b11:Nat) = 2 ^ 2 - 1 from rfl, and_mask_shiftRight,
          show 32 - so - 2 = 30 - 2 * (so / 2) from by omega]
        norm_num
      have hv := hvalid (so / 2) (by omega)
      rw [Option.isSome_iff_exists] at hv
      obtain ⟨s, hs⟩ := hv
      simp only [hconv, hs]
      have hrec := ih (so + 2) (by omega) (by omega) (by omega)
      rw [Option.map_eq_some'] at hrec
      obtain ⟨l, hl, hlen⟩ := hrec
      rw [hl]
      simp only [Option.map_some', List.length_cons, hlen, Option.some.injEq]
      omega

theorem PhyBitDecoder.samples_length {p : PhyBitDecoder} (h : p.Inv) :
    Option.map List.length p.samples = some (p.packed_sample_offs / 2) := by
  obtain ⟨hlt, heven, hle, hslots⟩ := h
  have := PhyBitDecoder.samplesGo_length p.packed_samples p.packed_sample_offs hslots
    heven hle 17 0 rfl (Nat.zero_le _) (by omega)
  simpa [PhyBitDecoder.samples] using this

/-- C1: evaluating the code at the failing input — pushing `[Pos, Neg, Zero]`
into the empty buffer and then iterating `samples()` yields
`[Zero, Neg, Pos]`, i.e. newest-to-oldest, not the claimed oldest-to-newest
push order `[Pos, Neg, Zero]`. -/
theorem samples_order_reversed_on_push_three :
    (PhyBitDecoder.default.pushAll [.Pos, .Neg, .Zero]).bind PhyBitDecoder.samples
      = some [PhySample.Zero, PhySample.Neg, PhySample.Pos] ∧
    [PhySample.Zero, PhySample.Neg, PhySample.Pos]
      ≠ [PhySample.Pos, PhySample.Neg, PhySample.Zero] := by
  constructor <;> decide

/-- C2: evaluating the code at the failing input — pushing the 17 samples
`Zero, Pos × 15, Neg` into the empty buffer retains exactly the last 16
(the first `Zero` is evicted), but `samples()` yields them newest first,
`Neg :: Pos × 15`, not in push order `Pos × 15 ++ [Neg]`. -/
theorem eviction_keeps_last_16_reversed :
    (PhyBitDecoder.default.pushAll
        ([.Zero] ++ List.replicate 15 .Pos ++ [.Neg])).bind PhyBitDecoder.samples
      = some (PhySample.Neg :: List.replicate 15 PhySample.Pos) ∧
    (PhySample.Neg :: List.replicate 15 PhySample.Pos)
      ≠ (List.replicate 15 PhySample.Pos ++ [PhySample.Neg]) := by
  constructor <;> decide

/-- C3: the daisy-chain output signal returned by `out_signals` is asserted
iff the device is configured; `out_signals` consults no input signal and no
command, so while unconfigured it is deasserted regardless of either. -/
theorem out_signals_iff_configured (d : BusDevice) :
    (d.out_signals).daisy_out = true ↔ d.configured = true := Iff.rfl

/-- C4: a command given to an unconfigured device whose daisy-chain input is
deasserted performs no action: the device state is returned unchanged and no
response is emitted, for every command. -/
theorem command_gated_no_action (d : BusDevice) (cmd : HpCommand) (sig : BusSignalsIn)
    (hconf : d.configured = false) (hin : sig.daisy_in = false) :
    d.command cmd sig = some (d, none) := by
  simp [BusDevice.command, hconf, hin]

/-- C4 witness: the theorem applied to a concrete unconfigured device. -/
theorem command_gated_no_action_witness :
    BusDevice.command ⟨false, 7⟩ HpCommand.Id ⟨false⟩ = some (⟨false, 7⟩, none) :=
  command_gated_no_action ⟨false, 7⟩ HpCommand.Id ⟨false⟩ rfl rfl

/-- C5: (spec-modelled) for an unconfigured device with daisy-chain input
asserted, `Config` transitions the device to configured, and `Id` emits the
identification value while leaving the device state unchanged. -/
theorem commandSpec_configure_identify (d : BusDevice) (sig : BusSignalsIn)
    (hconf : d.configured = false) (hin : sig.daisy_in = true) :
    d.commandSpec .Config sig = ({ d with configured := true }, none) ∧
    d.commandSpec .Id sig = (d, some d.id) := by
  constructor <;> simp [BusDevice.commandSpec, hconf, hin]

/-- C5 witness: the theorem applied to a concrete unconfigured device. -/
theorem commandSpec_configure_identify_witness :
    BusDevice.commandSpec ⟨false, 7⟩ .Config ⟨true⟩ = (⟨true, 7⟩, none) ∧
    BusDevice.commandSpec ⟨false, 7⟩ .Id ⟨true⟩ = (⟨false, 7⟩, some 7) :=
  commandSpec_configure_identify ⟨false, 7⟩ ⟨true⟩ rfl rfl

/-- C6: (spec-modelled) the four fixed sample patterns decode to the stated
bit values and synchronization flags: `PNZZ` → 1 non-sync, `NPZZ` → 0
non-sync, `PNPNZZ` → 1 sync, `NPNPZZ` → 0 sync. -/
theorem check_seq_patterns :
    check_seq [.Pos, .Neg, .Zero, .Zero] = some (true, false) ∧
    check_seq [.Neg, .Pos, .Zero, .Zero] = some (false, false) ∧
    check_seq [.Pos, .Neg, .Pos, .Neg, .Zero, .Zero] = some (true, true) ∧
    check_seq [.Neg, .Pos, .Neg, .Pos, .Zero, .Zero] = some (false, true) :=
  ⟨rfl, rfl, rfl, rfl⟩

/-- C7: on every buffer reachable from the empty state, the fill offset is
even and at most 32, and `push` never fails (neither assertion fires),
yielding a state whose fill offset is again even and at most 32. -/
theorem fill_offset_invariant (p : PhyBitDecoder) (h : p.Reachable) :
    p.packed_sample_offs % 2 = 0 ∧ p.packed_sample_offs ≤ 32 ∧
    ∀ s : PhySample, ∃ p' : PhyBitDecoder, p.push s = some p' ∧
      p'.packed_sample_offs % 2 = 0 ∧ p'.packed_sample_offs ≤ 32 := by
  obtain ⟨hlt, heven, hle, hslots⟩ := PhyBitDecoder.reachable_Inv h
  refine ⟨heven, hle, fun s => ⟨_, PhyBitDecoder.push_eq_some p s heven hle, ?_, ?_⟩⟩
  · show ((if p.packed_sample_offs = 32 then 30 else p.packed_sample_offs) + 2) % 2 = 0
    by_cases hO : p.packed_sample_offs = 32
    · rw [if_pos hO]
    · rw [if_neg hO]; omega
  · show (if p.packed_sample_offs = 32 then 30 else p.packed_sample_offs) + 2 ≤ 32
    by_cases hO : p.packed_sample_offs = 32
    · rw [if_pos hO]
    · rw [if_neg hO]; omega

/-- C7 witness: the invariant holds at the empty buffer. -/
theorem fill_offset_invariant_witness :
    PhyBitDecoder.default.packed_sample_offs % 2 = 0 ∧
    PhyBitDecoder.default.packed_sample_offs ≤ 32 :=
  ⟨(fill_offset_invariant PhyBitDecoder.default PhyBitDecoder.Reachable.base).1,
   (fill_offset_invariant PhyBitDecoder.default PhyBitDecoder.Reachable.base).2.1⟩

/-- C8: `control()` returns bits 10–8 of the raw value (always below 8),
`data()` returns bits 7–0, and `(control() << 8) | data()` reconstructs the
low 11 bits of the raw value. -/
theorem message_accessors (m : Message) (hraw : m.raw < 2 ^ 16) :
    m.control = m.raw / 2 ^ 8 % 2 ^ 3 ∧
    m.data = m.raw % 2 ^ 8 ∧
    m.control < 8 ∧
    (m.control <<< 8) ||| m.data = m.raw % 2 ^ 11 := by
  have hc : m.control = m.raw / 2 ^ 8 % 2 ^ 3 := by
    show (m.raw &&& (0b111 <<< 8)) >>> 8 = m.raw / 2 ^ 8 % 2 ^ 3
    rw [show (0b111:Nat) = 2 ^ 3 - 1 from rfl, and_mask_shiftRight,
      Nat.shiftRight_eq_div_pow]
  have hd : m.data = m.raw % 2 ^ 8 := rfl
  refine ⟨hc, hd, ?_, ?_⟩
  · rw [hc]
    exact Nat.mod_lt _ (by norm_num)
  · rw [hc, hd]
    apply Nat.eq_of_testBit_eq
    intro j
    rw [show m.raw / 2 ^ 8 = m.raw >>> 8 from (Nat.shiftRight_eq_div_pow _ _).symm]
    simp only [Nat.testBit_or, Nat.testBit_shiftLeft, Nat.testBit_mod_two_pow,
      Nat.testBit_shiftRight]
    by_cases hj : j < 8
    · have h8 : ¬ j ≥ 8 := by omega
      simp [hj, h8, show j < 11 from by omega]
    · have h8 : j ≥ 8 := by omega
      have hadd : 8 + (j - 8) = j := by omega
      have hiff : j - 8 < 3 ↔ j < 11 := by omega
      simp [hj, h8, hadd, hiff]

/-- C8 witness: the accessors evaluated at the concrete message 0x4D2. -/
theorem message_accessors_witness :
    Message.control ⟨1234⟩ = 1234 / 2 ^ 8 % 2 ^ 3 ∧
    Message.data ⟨1234⟩ = 1234 % 2 ^ 8 ∧
    Message.control ⟨1234⟩ < 8 ∧
    (Message.control ⟨1234⟩ <<< 8) ||| Message.data ⟨1234⟩ = 1234 % 2 ^ 11 :=
  message_accessors ⟨1234⟩ (by norm_num)

/-- C9: on every buffer reachable from the empty state, iterating `samples()`
is total — the `from_bits(...).unwrap()` never panics — and yields exactly
fill-offset / 2 samples. -/
theorem samples_total (p : PhyBitDecoder) (h : p.Reachable) :
    Option.map List.length p.samples = some (p.packed_sample_offs / 2) :=
  PhyBitDecoder.samples_length (PhyBitDecoder.reachable_Inv h)

/-- C9 witness: the buffer holding one pushed `Zero` sample. -/
theorem samples_total_witness :
    Option.map List.length (PhyBitDecoder.samples ⟨3 <<< 30, 2⟩) = some (2 / 2) :=
  samples_total ⟨3 <<< 30, 2⟩
    (PhyBitDecoder.Reachable.step PhyBitDecoder.default ⟨3 <<< 30, 2⟩ PhySample.Zero
      PhyBitDecoder.Reachable.base (by decide))

/-- C10: the 2-bit sample encoding round-trips through `from_bits`, never
produces the reserved code 0, and `from_bits 0 = none`. -/
theorem sample_bits_roundtrip (s : PhySample) :
    PhySample.from_bits s.as_bits = some s ∧ s.as_bits ≠ 0 ∧
    PhySample.from_bits 0 = none := by
  refine ⟨s.from_bits_as_bits, ?_, rfl⟩
  cases s <;> decide
